import Mathlib

/-!
Verification development for the benchq Ruby Slippers graph-state compiler.

The Python sources embedded here are:
* `tests/benchq/compilation/test_ruby_slippers.py` — the ICM reference
  implementation `get_icm` and the stabilizer-tableau comparison utilities
  (`_bool_dot`, `commutes`, `check_tableau_entries_commute`,
  `assert_tableaus_correspond_to_the_same_stabilizer_state`).
* `src/benchq/compilation/graph_states/circuit_compilers.py` — thin wrappers
  around the Julia implementation of the compiler itself.

The Julia compiler (`run_ruby_slippers` / `get_rbs_graph_state_data`) is not
part of the available sources; where a claim depends on it, the relevant
behaviour is modelled from the specification (each such definition carries a
doc comment starting with `Modelled from the spec:`) and validated against the
concrete expectations recorded in the repository's test suite.
-/

namespace Benchq

/-- An operation of a circuit: a gate name together with its ordered list of
target qubit indices (mirrors `orquestra.quantum.circuits` operations as used
by the repository). -/
structure Operation where
  gate : String
  qubits : List Nat
deriving DecidableEq, Repr

/-- A circuit is an ordered list of operations. -/
abbrev Circuit := List Operation

/-- Largest qubit index of an operation plus one (0 for an empty target list). -/
def opMaxIndexSucc (op : Operation) : Nat :=
  op.qubits.foldl (fun a q => max a (q + 1)) 0

/-- `circuit.n_qubits` of orquestra: one more than the largest qubit index
referenced by any operation (0 for the empty circuit). -/
def circuitNQubits (ops : Circuit) : Nat :=
  ops.foldl (fun a op => max a (opMaxIndexSucc op)) 0

/-! ## Stabilizer-tableau comparison utilities

Shallow embedding of the tableau checking helpers at the bottom of
`test_ruby_slippers.py`.  A tableau is a list of generator rows; each row is
the concatenation of the X-part and the Z-part bit-vectors, exactly the layout
produced by `get_tableau_from_stim_simulator` (`np.column_stack` of the X and Z
planes). -/

/-- Embedding of `_bool_dot(x, y)`: elementwise AND followed by an XOR
reduction seeded with the first element. -/
def bool_dot (x y : List Bool) : Bool :=
  match List.zipWith and x y with
  | [] => false
  | a :: rest => rest.foldl xor a

/-- Embedding of `commutes(stab_1, stab_2)`: symplectic-product test between
two generator rows, splitting each row at `len(stab_1) // 2`. -/
def commutes (stab1 stab2 : List Bool) : Bool :=
  let n := stab1.length / 2
  let comm1 := bool_dot (stab1.take n) (stab2.drop n)
  let comm2 := bool_dot (stab1.drop n) (stab2.take n)
  !(xor comm1 comm2)

/-- Embedding of `check_tableau_entries_commute(tableau_1, tableau_2)`.  As in
the source, the loop bound is `n_qubits = len(tableau_1) // 2`, i.e. half the
number of generator rows, and the inner loop runs over `range(i, n_qubits)`. -/
def check_tableau_entries_commute (tableau1 tableau2 : List (List Bool)) : Bool :=
  let n := tableau1.length / 2
  (List.range n).all fun i =>
    ((List.range n).drop i).all fun j =>
      commutes (tableau1.getD i []) (tableau2.getD j [])

/-- Row-echelon rank computation over the integers by fraction-free Gaussian
elimination (each elimination step replaces a row `s` by `p * s - s_j * r`,
a nonzero row-scaling, so the rational rank is preserved).  The fuel argument
makes the recursion structural; one row is consumed per step. -/
def rowRankFuel : Nat → List (List Int) → Nat
  | 0, _ => 0
  | _, [] => 0
  | fuel + 1, r :: rs =>
    if r.all (fun x => x == 0) then rowRankFuel fuel rs
    else
      let j := r.findIdx (fun x => x != 0)
      let p := r.getD j 0
      1 + rowRankFuel fuel
        (rs.map (fun srow => List.zipWith (fun a b => p * b - srow.getD j 0 * a) r srow))

/-- Embedding of `np.linalg.matrix_rank` on a boolean matrix: the rank of the
0/1 matrix over the rationals. -/
def matrix_rank (t : List (List Bool)) : Nat :=
  rowRankFuel t.length (t.map (fun row => row.map (fun b => if b then (1 : Int) else 0)))

/-- Number of columns of a list-of-rows matrix (numpy shape, second
component); the tableaus compared are rectangular numpy arrays. -/
def tableauCols (t : List (List Bool)) : Nat := (t.headD []).length

/-- Embedding of `assert_tableaus_correspond_to_the_same_stabilizer_state`.
The returned boolean is the conjunction of the asserts in the source:
the shape comparison, the commutation assert, and the two rank ceilings.
The commutation assert in the source is the bare statement
`assert check_tableau_entries_commute` — it tests the truthiness of the
function object without calling it, so it is the constant `true` here. -/
def assert_tableaus_correspond_to_the_same_stabilizer_state
    (tableau1 tableau2 : List (List Bool)) : Bool :=
  let shapeOk := tableau1.length == tableau2.length
    && tableauCols tableau1 == tableauCols tableau2
  let nQubits := tableau2.length
  let commuteAssert := true
  shapeOk && commuteAssert
    && (matrix_rank tableau1 == nQubits) && (matrix_rank tableau2 == nQubits)

/-! ## ICM normalization: `get_icm`

Shallow embedding of `get_icm(circuit, gates_to_decompose)` from
`test_ruby_slippers.py`.  The Python dictionary `compiled_qubit_index`
(initialized as the identity on `range(circuit.n_qubits)`, and read through
`.get(q, q)`) is embedded as a total function `Nat → Nat` starting as the
identity.  The counter `icm_circuit_n_qubits` starts at
`circuit.n_qubits - 1`. -/

/-- The default `gates_to_decompose` argument of `get_icm`. -/
def defaultGatesToDecompose : List String := ["T", "T_Dagger", "RZ"]

/-- Gate names handled by the stim-based reference simulator
`get_target_tableau` — the repository's operative notion of a Clifford gate. -/
def cliffordGateNames : List String :=
  ["I", "X", "Y", "Z", "CNOT", "S_Dagger", "S", "SX", "SX_Dagger", "H", "CZ"]

/-- Embedding of the inner loop of the decomposition / reset branches of
`get_icm`: for each `(original_qubit, compiled_qubit)` pair the counter is
incremented, the map is re-pointed at the fresh index, and (in the
decomposition branch) a `CNOT(compiled_qubit, fresh)` is emitted. -/
def icmInner : List (Nat × Nat) → (Nat → Nat) → Nat →
    ((Nat → Nat) × Nat × List Operation)
  | [], m, n => (m, n, [])
  | (orig, comp) :: rest, m, n =>
    let n' := n + 1
    let m' := fun q => if q = orig then n' else m q
    let res := icmInner rest m' n'
    (res.1, res.2.1, Operation.mk "CNOT" [comp, n'] :: res.2.2)

/-- Embedding of one iteration of the main loop of `get_icm`: given the
current `(compiled_qubit_index, icm_circuit_n_qubits)` state and the next
operation, produce the new state and the list of emitted operations.
The `RESET` branch performs the same allocations as the decomposition branch
but emits nothing; any other gate is emitted on its remapped qubits. -/
def icmStepOp (s : List String) (op : Operation) (m : Nat → Nat) (n : Nat) :
    ((Nat → Nat) × Nat) × List Operation :=
  let compiled := op.qubits.map m
  if op.gate ∈ s then
    let res := icmInner (op.qubits.zip compiled) m n
    ((res.1, res.2.1), res.2.2)
  else if op.gate = "RESET" then
    let res := icmInner (op.qubits.zip compiled) m n
    ((res.1, res.2.1), [])
  else
    ((m, n), [Operation.mk op.gate (op.qubits.map m)])

/-- The main loop of `get_icm`: fold `icmStepOp` over the operations,
returning the final `(map, counter)` state and the concatenated output. -/
def icmRun (s : List String) : Circuit → ((Nat → Nat) × Nat) →
    (((Nat → Nat) × Nat) × List Operation)
  | [], st => (st, [])
  | op :: rest, st =>
    let r1 := icmStepOp s op st.1 st.2
    let r2 := icmRun s rest r1.1
    (r2.1, r1.2 ++ r2.2)

/-- Embedding of `get_icm(circuit, gates_to_decompose)`: the list of emitted
operations, starting from the identity qubit map and counter
`circuit.n_qubits - 1`. -/
def get_icm (ops : Circuit) (s : List String) : Circuit :=
  (icmRun s ops (id, circuitNQubits ops - 1)).2

/-- Total number of ancilla allocations performed by `get_icm`: one per target
qubit of each decomposed or `RESET` operation. -/
def icmAllocCount (s : List String) (ops : Circuit) : Nat :=
  (ops.map (fun op =>
    if op.gate ∈ s ∨ op.gate = "RESET" then op.qubits.length else 0)).sum

/-- The trace of fresh indices taken by `icm_circuit_n_qubits` inside the
inner loop, in allocation order, starting from counter value `n`. -/
def icmAllocsInner : List (Nat × Nat) → Nat → Nat × List Nat
  | [], n => (n, [])
  | _ :: rest, n =>
    let res := icmAllocsInner rest (n + 1)
    (res.1, (n + 1) :: res.2)

/-- The trace of fresh ancilla indices allocated by `get_icm` over the whole
circuit, in allocation order, starting from counter value `n`. -/
def icmAllocsRun (s : List String) : Circuit → Nat → List Nat
  | [], _ => []
  | op :: rest, n =>
    if op.gate ∈ s ∨ op.gate = "RESET" then
      let res := icmAllocsInner (op.qubits.zip (op.qubits.map id)) n
      res.2 ++ icmAllocsRun s rest res.1
    else
      icmAllocsRun s rest n

/-- The list of ancilla indices allocated by `get_icm` on a circuit. -/
def icmAllocatedAncillas (ops : Circuit) (s : List String) : List Nat :=
  icmAllocsRun s ops (circuitNQubits ops - 1)

/-- Index of the last occurrence of `q` in a qubit list, if any: the position
whose assignment wins when the inner loop of `get_icm` writes
`compiled_qubit_index[original_qubit]` repeatedly. -/
def lastIdxOf (q : Nat) : List Nat → Option Nat
  | [] => none
  | x :: rest =>
    match lastIdxOf q rest with
    | some i => some (i + 1)
    | none => if x = q then some 0 else none

/-- Specification-side description of the qubit remapping performed by
`get_icm`: scanning the processed prefix left to right while tracking the
allocation counter, the compiled index of `q` is the fresh ancilla allocated
by the latest decomposed or `RESET` operation touching `q` (namely
`counter + last position of q in that operation + 1`), and stays at the
accumulator (initially `q` itself) if no such operation exists. -/
def lastAncillaFor (s : List String) (q : Nat) : Circuit → Nat → Nat → Nat
  | [], _, cur => cur
  | op :: rest, n, cur =>
    if op.gate ∈ s ∨ op.gate = "RESET" then
      let cur' := match lastIdxOf q op.qubits with
        | some i => n + i + 1
        | none => cur
      lastAncillaFor s q rest (n + op.qubits.length) cur'
    else
      lastAncillaFor s q rest n cur

/-! ## Model of the Ruby Slippers graph builder

The compiler proper (`run_ruby_slippers` / `get_rbs_graph_state_data`) is a
Julia program that is not part of the available sources; only its Python
wrappers and its test suite are.  The definitions in this section are
therefore modelled from the specification (sections 4.3, 4.4 of the design
document) and validated below against the concrete expectations pinned by
the teleportation-count test table in `test_ruby_slippers.py`. -/

/-- Hyperparameter record of the compiler (`RbSHyperparams`). -/
structure RbSHyperparams where
  teleportation_threshold : Nat
  teleportation_distance : Nat
  min_neighbor_degree : Nat
  max_num_neighbors_to_search : Nat
  decomposition_strategy : Nat
deriving DecidableEq, Repr

/-- Gate names treated as non-Clifford by the compiler front-end: T, its
adjoint and arbitrary rotations (spec section 2). -/
def nonCliffordNames : List String := ["T", "T_Dagger", "RZ", "RX", "RY"]

/-- Gate names counted by `t_states_per_layer`: T and T-adjoint. -/
def tGateNames : List String := ["T", "T_Dagger"]

/-- Modelled from the spec: state of the graph builder.  The adjacency
structure is an arena of vertex records indexed by dense integer id
(section 9); `attach` maps each logical wire to its current attachment
vertex; `teleports` counts the teleportation recoveries performed. -/
structure BuilderState where
  adj : List (List Nat)
  attach : Nat → Nat
  teleports : Nat

/-- Degree of vertex `v` in the model adjacency structure. -/
def degreeOf (adj : List (List Nat)) (v : Nat) : Nat :=
  (adj.getD v []).length

/-- Modelled from the spec: symmetric edge insertion, skipping self-loops and
already-present edges (the vertex-count claims are insensitive to this
choice; it keeps neighbor lists duplicate-free). -/
def addEdge (adj : List (List Nat)) (u v : Nat) : List (List Nat) :=
  if u = v then adj
  else if v ∈ adj.getD u [] then adj
  else (adj.set u (v :: adj.getD u [])).set v (u :: adj.getD v [])

/-- Modelled from the spec: the teleportation recovery chain (section 4.4) —
allocate `d` fresh ancilla vertices in a linear chain hanging off the
overloaded vertex and return the chain's tail as the new attachment point. -/
def teleportChain : Nat → List (List Nat) → Nat → List (List Nat) × Nat
  | 0, adj, cur => (adj, cur)
  | d + 1, adj, cur =>
    let w := adj.length
    teleportChain d (addEdge (adj ++ [[]]) cur w) w

/-- Modelled from the spec: before committing an edge at attachment vertex
`v = attach q`, check the degree ceiling; if one more edge would push the
degree past `teleportation_threshold`, invoke teleportation recovery for that
vertex (section 4.3) and re-target the wire at the chain's tail. -/
def ensureCapacity (hp : RbSHyperparams) (st : BuilderState) (q : Nat) :
    BuilderState × Nat :=
  let v := st.attach q
  if degreeOf st.adj v + 1 > hp.teleportation_threshold then
    let res := teleportChain hp.teleportation_distance st.adj v
    (⟨res.1, fun r => if r = q then res.2 else st.attach r, st.teleports + 1⟩, res.2)
  else
    (st, v)

/-- Modelled from the spec: place the coupling edge of a two-qubit operation
between the attachment vertices of its wires, teleporting either endpoint
first if its degree ceiling would be violated. -/
def placeCoupling (hp : RbSHyperparams) (st : BuilderState) (a b : Nat) :
    BuilderState :=
  let r1 := ensureCapacity hp st a
  let r2 := ensureCapacity hp r1.1 b
  ⟨addEdge r2.1.adj r1.2 r2.2, r2.1.attach, r2.1.teleports⟩

/-- Modelled from the spec: ICM lowering of one non-Clifford target qubit —
allocate a fresh ancilla vertex, place the deferred coupling between the
wire's attachment vertex and the ancilla, and re-target the wire at the
ancilla (sections 2 and 4.1; matches decomposition strategy 0, under which
repeated T gates on one wire chain ancillas instead of saturating a hub). -/
def decomposeQubit (hp : RbSHyperparams) (st : BuilderState) (q : Nat) :
    BuilderState :=
  let w := st.adj.length
  let stW : BuilderState := ⟨st.adj ++ [[]], st.attach, st.teleports⟩
  let r1 := ensureCapacity hp stW q
  ⟨addEdge r1.1.adj r1.2 w, fun r => if r = q then w else r1.1.attach r, r1.1.teleports⟩

/-- Modelled from the spec: processing of a single operation of the gate
stream.  Non-Clifford gates are lowered per target qubit; two-qubit Clifford
gates are couplings; single-qubit Clifford gates do not change the graph
structure. -/
def builderStep (hp : RbSHyperparams) (st : BuilderState) (op : Operation) :
    BuilderState :=
  if op.gate ∈ nonCliffordNames then
    op.qubits.foldl (decomposeQubit hp) st
  else
    match op.qubits with
    | [a, b] => placeCoupling hp st a b
    | _ => st

/-- Modelled from the spec: initial builder state — one vertex per declared
circuit qubit, each wire attached to its own vertex. -/
def builderStart (ops : Circuit) : BuilderState :=
  ⟨List.replicate (circuitNQubits ops) [], id, 0⟩

/-- Modelled from the spec: run the graph builder over the whole circuit. -/
def runBuilder (ops : Circuit) (hp : RbSHyperparams) : BuilderState :=
  ops.foldl (builderStep hp) (builderStart ops)

/-- Number of vertices of the compiled graph state (`len(asg["sqp"])`). -/
def numVertices (ops : Circuit) (hp : RbSHyperparams) : Nat :=
  (runBuilder ops hp).adj.length

/-- Number of teleportation recoveries performed during compilation. -/
def countTeleportations (ops : Circuit) (hp : RbSHyperparams) : Nat :=
  (runBuilder ops hp).teleports

/-- Total number of ancilla qubits allocated by the ICM lowering during graph
construction: one per target qubit of each non-Clifford operation. -/
def nonCliffordAllocCount (ops : Circuit) : Nat :=
  (ops.map (fun op =>
    if op.gate ∈ nonCliffordNames then op.qubits.length else 0)).sum

/-! ## Model of the layering assembler and the anytime controller

These observables of the compiled result (`pauli_tracker["layering"]`,
`get_num_logical_qubits`, `graph_creation_tocks_per_layer`,
`t_states_per_layer`, and the completion fraction of `run_ruby_slippers`)
are produced by the Julia implementation, absent from the sources; they are
modelled from the specification (sections 4.5, 4.6) and validated against the
expectations pinned in `test_ruby_slippers.py`. -/

/-- Increment the per-wire non-Clifford counter of qubit `q`. -/
def bumpWire (cnts : List Nat) (q : Nat) : List Nat :=
  cnts.set q (cnts.getD q 0 + 1)

/-- Walk the target qubits of one non-Clifford operation, recording for each
the number of non-Clifford measurements already pending on that wire (its
dependency depth) and bumping the wire counters. -/
def opDepths : List Nat → List Nat → List Nat × List Nat
  | [], cnts => ([], cnts)
  | q :: qs, cnts =>
    let d := cnts.getD q 0
    let res := opDepths qs (bumpWire cnts q)
    (d :: res.1, res.2)

/-- Final per-wire non-Clifford measurement counts after the whole circuit. -/
def wireCountsAux : Circuit → List Nat → List Nat
  | [], cnts => cnts
  | op :: rest, cnts =>
    if op.gate ∈ nonCliffordNames then wireCountsAux rest (opDepths op.qubits cnts).2
    else wireCountsAux rest cnts

/-- Modelled from the spec: per-wire counts of non-Clifford measurements of a
circuit (every non-Clifford operation occupies a layer of its wire,
section 3, PauliTracker invariant). -/
def wireCounts (ops : Circuit) : List Nat :=
  wireCountsAux ops (List.replicate (circuitNQubits ops) 0)

/-- Dependency depths of the T / T-adjoint measurements of a circuit, in
stream order: each T-state measurement is assigned the layer equal to the
number of non-Clifford measurements already pending on its wire. -/
def tOccDepthsAux : Circuit → List Nat → List Nat
  | [], _ => []
  | op :: rest, cnts =>
    if op.gate ∈ nonCliffordNames then
      let res := opDepths op.qubits cnts
      (if op.gate ∈ tGateNames then res.1 else []) ++ tOccDepthsAux rest res.2
    else tOccDepthsAux rest cnts

/-- Layer assignments of all T-state measurements of a circuit. -/
def tOccDepths (ops : Circuit) : List Nat :=
  tOccDepthsAux ops (List.replicate (circuitNQubits ops) 0)

/-- Number of layers spanned by the T-state measurements (one past the
largest assigned layer; 0 when there is none). -/
def numTLayers (ops : Circuit) : Nat :=
  (tOccDepths ops).foldl (fun a d => max a (d + 1)) 0

/-- Modelled from the spec: `t_states_per_layer` — the number of T-state
measurements resolved in each layer.  The layer distribution is
architecture-independent in the model (the architecture constrains neighbor
eligibility, not which measurements a layer resolves). -/
def tStatesPerLayer (arch : String) (ops : Circuit) : List Nat :=
  let ds := tOccDepths ops
  let _ := arch
  (List.range (numTLayers ops)).map (fun k => ds.countP (fun d => d == k))

/-- Modelled from the spec: length of `pauli_tracker["layering"]` — at least
one layer always exists; stacked non-Clifford measurements on one wire each
occupy a layer, and teleportation ancillas must be measured and therefore
occupy a layer of their own (section 4.4). -/
def layeringLength (ops : Circuit) (hp : RbSHyperparams) : Nat :=
  max 1 ((wireCounts ops).foldl max 0)
    + (if countTeleportations ops hp > 0 then 1 else 0)

/-- Modelled from the spec: `get_num_logical_qubits` for the `Time`
optimization — all graph vertices are live at once except that on each wire
carrying non-Clifford measurements the wire's input vertex is consumed by the
first measurement of its ancilla chain. -/
def numLogicalQubitsTime (ops : Circuit) (hp : RbSHyperparams) : Nat :=
  numVertices ops hp - (wireCounts ops).countP (fun c => 0 < c)

/-- Per-vertex degrees of the compiled graph state. -/
def vertexDegrees (ops : Circuit) (hp : RbSHyperparams) : List Nat :=
  (runBuilder ops hp).adj.map (fun nbrs => nbrs.length)

/-- Modelled from the spec: total graph-construction tocks
(`sum(graph_creation_tocks_per_layer)`).  Under `all_to_all` every vertex
pair is eligible each tock but a vertex acquires at most one new neighbor per
tock, so the rounds needed are bounded by the maximum vertex degree; the
`two_row_bus` serializes edge placement along the bus, one endpoint per tock.
The optimization mode selects tie-breaks that do not change these bounds. -/
def graphCreationTocksSum (arch : String) (opt : String) (ops : Circuit)
    (hp : RbSHyperparams) : Nat :=
  let degs := vertexDegrees ops hp
  let _ := opt
  if arch = "all_to_all" then degs.foldl max 0 else degs.sum

/-- Modelled from the spec: number of T-state measurement layers reported for
an architecture; the layering is architecture-independent in the model. -/
def numTMeasurementLayers (arch : String) (opt : String) (ops : Circuit)
    (hp : RbSHyperparams) : Nat :=
  let _ := arch
  let _ := opt
  layeringLength ops hp

/-- Number of coupling edge placements the full compilation must perform: one
per two-qubit Clifford operation and one per non-Clifford target qubit. -/
def couplingFrontierSize (ops : Circuit) : Nat :=
  (ops.map (fun op =>
    if op.gate ∈ nonCliffordNames then op.qubits.length
    else if op.qubits.length = 2 then 1 else 0)).sum

/-- Modelled from the spec: number of coupling placements processed before
the wall-clock budget interrupts the builder (`none` means no deadline was
hit, so the whole frontier is processed). -/
def processedCouplings (ops : Circuit) (budget : Option Nat) : Nat :=
  match budget with
  | none => couplingFrontierSize ops
  | some b => min b (couplingFrontierSize ops)

/-- Modelled from the spec: the completion fraction returned by
`run_ruby_slippers` — the processed share of the full coupling frontier,
and exactly 1 when the frontier is empty or fully processed. -/
def completionFraction (ops : Circuit) (budget : Option Nat) : ℚ :=
  if couplingFrontierSize ops = 0 then 1
  else (processedCouplings ops budget : ℚ) / (couplingFrontierSize ops : ℚ)

/-! ## Helper lemmas -/

theorem foldl_max_init (l : List Nat) : ∀ a : Nat, a ≤ l.foldl max a := by
  induction l with
  | nil => intro a; exact le_refl a
  | cons x xs ih => intro a; exact le_trans (le_max_left a x) (ih (max a x))

theorem foldl_max_mem {x : Nat} : ∀ {l : List Nat}, x ∈ l → ∀ a : Nat, x ≤ l.foldl max a := by
  intro l
  induction l with
  | nil => intro h; cases h
  | cons y ys ih =>
    intro h a
    rcases List.mem_cons.mp h with h | h
    · subst h
      exact le_trans (le_max_right a x) (foldl_max_init ys (max a x))
    · exact ih h (max a y)

theorem foldl_max_le {l : List Nat} {b : Nat} :
    ∀ a : Nat, a ≤ b → (∀ x ∈ l, x ≤ b) → l.foldl max a ≤ b := by
  induction l with
  | nil => intro a ha _; exact ha
  | cons y ys ih =>
    intro a ha hall
    exact ih (max a y) (max_le ha (hall y (List.mem_cons_self y ys)))
      (fun x hx => hall x (List.mem_cons_of_mem y hx))

theorem le_opMaxIndexSucc {q : Nat} {op : Operation} (h : q ∈ op.qubits) :
    q + 1 ≤ opMaxIndexSucc op := by
  unfold opMaxIndexSucc
  revert h
  have main : ∀ (qs : List Nat) (a : Nat), q ∈ qs →
      q + 1 ≤ qs.foldl (fun a q => max a (q + 1)) a := by
    intro qs
    induction qs with
    | nil => intro a h; cases h
    | cons y ys ih =>
      intro a h
      rcases List.mem_cons.mp h with h | h
      · subst h
        have base : ∀ (l : List Nat) (a : Nat), a ≤ l.foldl (fun a q => max a (q + 1)) a := by
          intro l
          induction l with
          | nil => intro a; exact le_refl a
          | cons z zs ihz => intro a; exact le_trans (le_max_left a (z + 1)) (ihz (max a (z + 1)))
        exact le_trans (le_max_right a (q + 1)) (base ys (max a (q + 1)))
      · exact ih (max a (y + 1)) h
  exact fun h => main op.qubits 0 h

theorem qubit_lt_circuitNQubits {ops : Circuit} {op : Operation} {q : Nat}
    (hop : op ∈ ops) (hq : q ∈ op.qubits) : q < circuitNQubits ops := by
  unfold circuitNQubits
  have main : ∀ (l : Circuit) (a : Nat), op ∈ l →
      opMaxIndexSucc op ≤ l.foldl (fun a op => max a (opMaxIndexSucc op)) a := by
    intro l
    induction l with
    | nil => intro a h; cases h
    | cons o os ih =>
      intro a h
      rcases List.mem_cons.mp h with h | h
      · subst h
        have base : ∀ (l' : Circuit) (a : Nat),
            a ≤ l'.foldl (fun a op => max a (opMaxIndexSucc op)) a := by
          intro l'
          induction l' with
          | nil => intro a; exact le_refl a
          | cons z zs ihz =>
            intro a
            exact le_trans (le_max_left a (opMaxIndexSucc z)) (ihz (max a (opMaxIndexSucc z)))
        exact le_trans (le_max_right a (opMaxIndexSucc op)) (base os _)
      · exact ih (max a (opMaxIndexSucc o)) h
  exact lt_of_lt_of_le (Nat.lt_of_lt_of_le (Nat.lt_succ_self q) (le_opMaxIndexSucc hq))
    (main ops 0 hop)

theorem bumpWire_sum {cnts : List Nat} {q : Nat} (h : q < cnts.length) :
    (bumpWire cnts q).sum = cnts.sum + 1 := by
  unfold bumpWire
  induction cnts generalizing q with
  | nil => cases h
  | cons c rest ih =>
    cases q with
    | zero => simp [List.getD]; omega
    | succ q' =>
      have h' : q' < rest.length := by simpa using h
      simp only [List.set, List.getD, List.get?, List.sum_cons]
      have := ih h'
      simp only [List.getD] at this
      omega

theorem bumpWire_length (cnts : List Nat) (q : Nat) :
    (bumpWire cnts q).length = cnts.length := by
  simp [bumpWire]

theorem sum_eq_countP_of_le_one :
    ∀ (l : List Nat), (∀ x ∈ l, x ≤ 1) → l.sum = l.countP (fun x => 0 < x) := by
  intro l
  induction l with
  | nil => intro _; rfl
  | cons x xs ih =>
    intro h
    have hx : x ≤ 1 := h x (List.mem_cons_self x xs)
    have hxs := ih (fun y hy => h y (List.mem_cons_of_mem x hy))
    rcases Nat.le_one_iff_eq_zero_or_eq_one.mp hx with rfl | rfl
    · simp [List.countP_cons, hxs]
    · simp [List.countP_cons, hxs]
      omega

theorem indicator_sum_range (x : Nat) :
    ∀ L : Nat, (((List.range L).map (fun k => if x == k then 1 else 0)).sum : Nat)
      = if x < L then 1 else 0 := by
  intro L
  induction L with
  | zero => simp
  | succ L ih =>
    rw [List.range_succ]
    simp only [List.map_append, List.sum_append, List.map_cons, List.map_nil,
      List.sum_cons, List.sum_nil, ih]
    by_cases hlt : x < L
    · have hne : (x == L) = false := by
        simp only [beq_eq_false_iff_ne]; omega
      simp [hlt, hne, Nat.lt_succ_of_lt hlt]
    · by_cases heq : x = L
      · subst heq
        simp [hlt, Nat.lt_succ_self]
      · have hge : ¬ x < L + 1 := by omega
        have hne : (x == L) = false := by simp only [beq_eq_false_iff_ne]; exact heq
        simp [hlt, hne, hge]

theorem bucket_sum {L : Nat} :
    ∀ (l : List Nat), (∀ x ∈ l, x < L) →
      (((List.range L).map (fun k => l.countP (fun d => d == k))).sum : Nat) = l.length := by
  intro l
  induction l with
  | nil => intro _; simp [List.countP_nil]
  | cons x xs ih =>
    intro h
    have hx : x < L := h x (List.mem_cons_self x xs)
    have hxs := ih (fun y hy => h y (List.mem_cons_of_mem x hy))
    have expand : ((List.range L).map (fun k => (x :: xs).countP (fun d => d == k)))
        = (List.range L).map (fun k => xs.countP (fun d => d == k) + (if x == k then 1 else 0)) := by
      apply List.map_congr_left
      intro k _
      rw [List.countP_cons]
    rw [expand]
    have split : ∀ (ks : List Nat),
        ((ks.map (fun k => xs.countP (fun d => d == k) + (if x == k then 1 else 0))).sum : Nat)
          = (ks.map (fun k => xs.countP (fun d => d == k))).sum
            + (ks.map (fun k => if x == k then 1 else 0)).sum := by
      intro ks
      induction ks with
      | nil => simp
      | cons k ks ihk => simp [ihk]; omega
    rw [split, hxs, indicator_sum_range x L]
    simp [hx]

theorem addEdge_length (adj : List (List Nat)) (u v : Nat) :
    (addEdge adj u v).length = adj.length := by
  unfold addEdge
  split
  · rfl
  · split
    · rfl
    · simp [List.length_set]

theorem teleportChain_length :
    ∀ (d : Nat) (adj : List (List Nat)) (cur : Nat),
      (teleportChain d adj cur).1.length = adj.length + d := by
  intro d
  induction d with
  | zero => intro adj cur; simp [teleportChain]
  | succ d ih =>
    intro adj cur
    unfold teleportChain
    rw [ih]
    simp [addEdge_length]
    omega

theorem ensureCapacity_spec (hp : RbSHyperparams) (st : BuilderState) (q : Nat) :
    ∃ k : Nat,
      (ensureCapacity hp st q).1.adj.length
          = st.adj.length + hp.teleportation_distance * k
        ∧ (ensureCapacity hp st q).1.teleports = st.teleports + k := by
  unfold ensureCapacity
  by_cases h : degreeOf st.adj (st.attach q) + 1 > hp.teleportation_threshold
  · exact ⟨1, by simp [h, teleportChain_length], by simp [h]⟩
  · exact ⟨0, by simp [h], by simp [h]⟩

theorem placeCoupling_spec (hp : RbSHyperparams) (st : BuilderState) (a b : Nat) :
    ∃ k : Nat,
      (placeCoupling hp st a b).adj.length
          = st.adj.length + hp.teleportation_distance * k
        ∧ (placeCoupling hp st a b).teleports = st.teleports + k := by
  unfold placeCoupling
  obtain ⟨k1, h1len, h1tel⟩ := ensureCapacity_spec hp st a
  obtain ⟨k2, h2len, h2tel⟩ := ensureCapacity_spec hp (ensureCapacity hp st a).1 b
  refine ⟨k1 + k2, ?_, ?_⟩
  · simp only [addEdge_length, h2len, h1len, Nat.mul_add]
    omega
  · simp only [h2tel, h1tel]
    omega

theorem decomposeQubit_spec (hp : RbSHyperparams) (st : BuilderState) (q : Nat) :
    ∃ k : Nat,
      (decomposeQubit hp st q).adj.length
          = st.adj.length + 1 + hp.teleportation_distance * k
        ∧ (decomposeQubit hp st q).teleports = st.teleports + k := by
  unfold decomposeQubit
  obtain ⟨k, hlen, htel⟩ :=
    ensureCapacity_spec hp ⟨st.adj ++ [[]], st.attach, st.teleports⟩ q
  refine ⟨k, ?_, ?_⟩
  · simp only [addEdge_length, hlen]
    simp
  · exact htel

theorem foldl_decomposeQubit_spec (hp : RbSHyperparams) :
    ∀ (qs : List Nat) (st : BuilderState),
      ∃ k : Nat,
        (qs.foldl (decomposeQubit hp) st).adj.length
            = st.adj.length + qs.length + hp.teleportation_distance * k
          ∧ (qs.foldl (decomposeQubit hp) st).teleports = st.teleports + k := by
  intro qs
  induction qs with
  | nil => intro st; exact ⟨0, by simp, by simp⟩
  | cons q rest ih =>
    intro st
    obtain ⟨k1, h1len, h1tel⟩ := decomposeQubit_spec hp st q
    obtain ⟨k2, h2len, h2tel⟩ := ih (decomposeQubit hp st q)
    refine ⟨k1 + k2, ?_, ?_⟩
    · simp only [List.foldl_cons, h2len, h1len, Nat.mul_add, List.length_cons]
      omega
    · simp only [List.foldl_cons, h2tel, h1tel]
      omega

/-- Number of ancillas the ICM lowering allocates for one operation. -/
def opAllocCount (op : Operation) : Nat :=
  if op.gate ∈ nonCliffordNames then op.qubits.length else 0

theorem builderStep_spec (hp : RbSHyperparams) (st : BuilderState) (op : Operation) :
    ∃ k : Nat,
      (builderStep hp st op).adj.length
          = st.adj.length + opAllocCount op + hp.teleportation_distance * k
        ∧ (builderStep hp st op).teleports = st.teleports + k := by
  unfold builderStep opAllocCount
  split
  · exact foldl_decomposeQubit_spec hp op.qubits st
  · split
    · obtain ⟨k, hlen, htel⟩ := placeCoupling_spec hp st _ _
      exact ⟨k, by simpa using hlen, htel⟩
    · exact ⟨0, by simp, by simp⟩

theorem nonCliffordAllocCount_cons (op : Operation) (rest : Circuit) :
    nonCliffordAllocCount (op :: rest) = opAllocCount op + nonCliffordAllocCount rest := by
  simp [nonCliffordAllocCount, opAllocCount]

theorem foldl_builderStep_spec (hp : RbSHyperparams) :
    ∀ (ops : Circuit) (st : BuilderState),
      ∃ k : Nat,
        (ops.foldl (builderStep hp) st).adj.length
            = st.adj.length + nonCliffordAllocCount ops + hp.teleportation_distance * k
          ∧ (ops.foldl (builderStep hp) st).teleports = st.teleports + k := by
  intro ops
  induction ops with
  | nil => intro st; exact ⟨0, by simp [nonCliffordAllocCount], by simp⟩
  | cons op rest ih =>
    intro st
    obtain ⟨k1, h1len, h1tel⟩ := builderStep_spec hp st op
    obtain ⟨k2, h2len, h2tel⟩ := ih (builderStep hp st op)
    refine ⟨k1 + k2, ?_, ?_⟩
    · simp only [List.foldl_cons, h2len, h1len, Nat.mul_add, nonCliffordAllocCount_cons]
      omega
    · simp only [List.foldl_cons, h2tel, h1tel]
      omega

/-- Vertex-count equation of the model builder: the compiled graph has one
vertex per circuit qubit, one per ICM ancilla, and `teleportation_distance`
per teleportation recovery. -/
theorem numVertices_eq (ops : Circuit) (hp : RbSHyperparams) :
    numVertices ops hp
      = circuitNQubits ops + nonCliffordAllocCount ops
        + hp.teleportation_distance * countTeleportations ops hp := by
  unfold numVertices countTeleportations runBuilder
  obtain ⟨k, hlen, htel⟩ := foldl_builderStep_spec hp ops (builderStart ops)
  have hstartLen : (builderStart ops).adj.length = circuitNQubits ops := by
    simp [builderStart]
  have hstartTel : (builderStart ops).teleports = 0 := by simp [builderStart]
  rw [hlen, hstartLen]
  rw [htel, hstartTel]
  simp

theorem icmInner_counter :
    ∀ (pairs : List (Nat × Nat)) (m : Nat → Nat) (n : Nat),
      (icmInner pairs m n).2.1 = n + pairs.length := by
  intro pairs
  induction pairs with
  | nil => intro m n; rfl
  | cons p rest ih =>
    intro m n
    obtain ⟨orig, comp⟩ := p
    simp only [icmInner, ih, List.length_cons]
    omega

theorem icmInner_map :
    ∀ (pairs : List (Nat × Nat)) (m : Nat → Nat) (n q : Nat),
      (icmInner pairs m n).1 q
        = match lastIdxOf q (pairs.map Prod.fst) with
          | some i => n + i + 1
          | none => m q := by
  intro pairs
  induction pairs with
  | nil => intro m n q; rfl
  | cons p rest ih =>
    intro m n q
    obtain ⟨orig, comp⟩ := p
    simp only [icmInner, List.map_cons, lastIdxOf, ih]
    cases hl : lastIdxOf q (rest.map Prod.fst) with
    | some i => simp; omega
    | none =>
      by_cases horig : orig = q
      · subst horig
        simp
      · simp [horig, Ne.symm horig]

theorem icmInner_out :
    ∀ (pairs : List (Nat × Nat)) (m : Nat → Nat) (n : Nat),
      (icmInner pairs m n).2.2
        = List.zipWith (fun comp fresh => Operation.mk "CNOT" [comp, fresh])
            (pairs.map Prod.snd) (List.range' (n + 1) pairs.length) := by
  intro pairs
  induction pairs with
  | nil => intro m n; rfl
  | cons p rest ih =>
    intro m n
    obtain ⟨orig, comp⟩ := p
    simp only [icmInner, ih, List.map_cons, List.length_cons, List.range'_succ,
      List.zipWith_cons_cons]

theorem icmAllocCount_cons (s : List String) (op : Operation) (rest : Circuit) :
    icmAllocCount s (op :: rest)
      = (if op.gate ∈ s ∨ op.gate = "RESET" then op.qubits.length else 0)
        + icmAllocCount s rest := by
  simp [icmAllocCount]

theorem icmRun_counter (s : List String) :
    ∀ (ops : Circuit) (m : Nat → Nat) (n : Nat),
      (icmRun s ops (m, n)).1.2 = n + icmAllocCount s ops := by
  intro ops
  induction ops with
  | nil => intro m n; simp [icmRun, icmAllocCount]
  | cons op rest ih =>
    intro m n
    rw [icmAllocCount_cons]
    by_cases hs : op.gate ∈ s
    · simp only [icmRun, icmStepOp, hs, if_pos, ih]
      rw [icmInner_counter]
      simp [hs]
      omega
    · by_cases hr : op.gate = "RESET"
      · have hs' : ¬ ("RESET" ∈ s) := hr ▸ hs
        simp only [icmRun, icmStepOp, hs, hr, hs', if_neg, if_pos, ite_true, ite_false, ih]
        rw [icmInner_counter]
        simp [hs, hr, hs']
        omega
      · simp only [icmRun, icmStepOp, hs, hr, ite_false, ih]
        simp [hs, hr]

theorem icmRun_map (s : List String) :
    ∀ (ops : Circuit) (m : Nat → Nat) (n q : Nat),
      (icmRun s ops (m, n)).1.1 q = lastAncillaFor s q ops n (m q) := by
  intro ops
  induction ops with
  | nil => intro m n q; rfl
  | cons op rest ih =>
    intro m n q
    by_cases ht : op.gate ∈ s ∨ op.gate = "RESET"
    · have hstep : (icmStepOp s op m n).1
          = ((icmInner (op.qubits.zip (op.qubits.map m)) m n).1,
             (icmInner (op.qubits.zip (op.qubits.map m)) m n).2.1) := by
        rcases ht with hs | hr
        · simp [icmStepOp, hs]
        · by_cases hs : op.gate ∈ s
          · simp [icmStepOp, hs]
          · have hs' : ¬ ("RESET" ∈ s) := hr ▸ hs
            simp [icmStepOp, hs, hr, hs']
      have hfst : (op.qubits.zip (op.qubits.map m)).map Prod.fst = op.qubits :=
        List.map_fst_zip _ _ (by simp)
      simp only [icmRun, hstep, ih, icmInner_counter, List.length_zip,
        List.length_map, min_self, icmInner_map, hfst]
      simp only [lastAncillaFor, ht, if_pos]
    · have hs : ¬ op.gate ∈ s := fun h => ht (Or.inl h)
      have hr : ¬ op.gate = "RESET" := fun h => ht (Or.inr h)
      simp only [icmRun, icmStepOp, hs, hr, ite_false, ih]
      simp [lastAncillaFor, ht]

theorem zipWith_cnot_names (a b : List Nat) :
    (List.zipWith (fun comp fresh => Operation.mk "CNOT" [comp, fresh]) a b).map
        (fun op => op.gate)
      = List.replicate (min a.length b.length) "CNOT" := by
  induction a generalizing b with
  | nil => simp
  | cons x xs ih =>
    cases b with
    | nil => simp
    | cons y ys =>
      simp only [List.zipWith_cons_cons, List.map_cons, ih, List.length_cons]
      rw [Nat.succ_min_succ, List.replicate_succ]

theorem icmRun_names (s : List String) :
    ∀ (ops : Circuit) (m : Nat → Nat) (n : Nat),
      ((icmRun s ops (m, n)).2.map (fun op => op.gate))
        = ops.flatMap (fun op =>
            if op.gate ∈ s then List.replicate op.qubits.length "CNOT"
            else if op.gate = "RESET" then [] else [op.gate]) := by
  intro ops
  induction ops with
  | nil => intro m n; rfl
  | cons op rest ih =>
    intro m n
    rw [List.flatMap_cons]
    by_cases hs : op.gate ∈ s
    · simp only [icmRun, icmStepOp, hs, ite_true, List.map_append, ih,
        icmInner_out, zipWith_cnot_names, icmInner_counter]
      simp [hs]
    · by_cases hr : op.gate = "RESET"
      · have hs' : ¬ ("RESET" ∈ s) := hr ▸ hs
        simp only [icmRun, icmStepOp, hs, hr, hs', ite_true, ite_false,
          List.map_append, ih, icmInner_counter]
        simp [hs, hr, hs']
      · simp only [icmRun, icmStepOp, hs, hr, ite_false, List.map_append, ih]
        simp [hs, hr]

theorem icmAllocsInner_spec :
    ∀ (pairs : List (Nat × Nat)) (n : Nat),
      icmAllocsInner pairs n = (n + pairs.length, List.range' (n + 1) pairs.length) := by
  intro pairs
  induction pairs with
  | nil => intro n; rfl
  | cons p rest ih =>
    intro n
    simp only [icmAllocsInner, ih, List.length_cons, List.range'_succ, Prod.mk.injEq]
    exact ⟨by omega, trivial⟩

theorem icmAllocsRun_spec (s : List String) :
    ∀ (ops : Circuit) (n : Nat),
      icmAllocsRun s ops n = List.range' (n + 1) (icmAllocCount s ops) := by
  intro ops
  induction ops with
  | nil => intro n; simp [icmAllocsRun, icmAllocCount]
  | cons op rest ih =>
    intro n
    rw [icmAllocCount_cons]
    by_cases ht : op.gate ∈ s ∨ op.gate = "RESET"
    · simp only [icmAllocsRun, ht, ite_true, icmAllocsInner_spec, List.length_zip,
        List.length_map, min_self, ih]
      have := List.range'_append (n + 1) op.qubits.length (icmAllocCount s rest) 1
      simp only [one_mul] at this
      rw [show n + 1 + op.qubits.length = n + op.qubits.length + 1 by omega] at this
      rw [this]
      congr 1
      omega
    · simp only [icmAllocsRun, ht, ite_false, ih]
      simp [ht]

/-- The ancilla indices `get_icm` allocates are exactly the consecutive
integers starting right after the input circuit's qubit indices; in
particular the occurrence-to-ancilla assignment is injective. -/
theorem icmAllocatedAncillas_spec (ops : Circuit) (s : List String) :
    icmAllocatedAncillas ops s
      = List.range' (circuitNQubits ops - 1 + 1) (icmAllocCount s ops) :=
  icmAllocsRun_spec s ops (circuitNQubits ops - 1)

theorem icmRun_append_state (s : List String) :
    ∀ (a b : Circuit) (st : (Nat → Nat) × Nat),
      (icmRun s (a ++ b) st).1 = (icmRun s b (icmRun s a st).1).1 := by
  intro a
  induction a with
  | nil => intro b st; rfl
  | cons op rest ih =>
    intro b st
    simp only [List.cons_append, icmRun, List.append_eq, ih]

theorem icmRun_append_out (s : List String) :
    ∀ (a b : Circuit) (st : (Nat → Nat) × Nat),
      (icmRun s (a ++ b) st).2
        = (icmRun s a st).2 ++ (icmRun s b (icmRun s a st).1).2 := by
  intro a
  induction a with
  | nil => intro b st; rfl
  | cons op rest ih =>
    intro b st
    simp only [List.cons_append, icmRun, List.append_eq, ih, List.append_assoc]

theorem foldl_maxsucc_init (l : List Nat) : ∀ a : Nat, a ≤ l.foldl (fun a d => max a (d + 1)) a := by
  induction l with
  | nil => intro a; exact le_refl a
  | cons x xs ih => intro a; exact le_trans (le_max_left a (x + 1)) (ih (max a (x + 1)))

theorem foldl_maxsucc_mem {d : Nat} :
    ∀ {l : List Nat}, d ∈ l → ∀ a : Nat, d + 1 ≤ l.foldl (fun a d => max a (d + 1)) a := by
  intro l
  induction l with
  | nil => intro h; cases h
  | cons x xs ih =>
    intro h a
    rcases List.mem_cons.mp h with h | h
    · subst h
      exact le_trans (le_max_right a (d + 1)) (foldl_maxsucc_init xs (max a (d + 1)))
    · exact ih h (max a (x + 1))

theorem tGate_mem_nonClifford {g : String} (h : g ∈ tGateNames) : g ∈ nonCliffordNames := by
  simp only [tGateNames, List.mem_cons, List.mem_singleton, List.not_mem_nil] at h
  rcases h with rfl | h
  · decide
  · simp only [List.mem_singleton, List.not_mem_nil, or_false] at h
    subst h
    decide

theorem opDepths_fst_length :
    ∀ (qs : List Nat) (cnts : List Nat), (opDepths qs cnts).1.length = qs.length := by
  intro qs
  induction qs with
  | nil => intro cnts; rfl
  | cons q rest ih => intro cnts; simp [opDepths, ih]

theorem opDepths_snd_length :
    ∀ (qs : List Nat) (cnts : List Nat), (opDepths qs cnts).2.length = cnts.length := by
  intro qs
  induction qs with
  | nil => intro cnts; rfl
  | cons q rest ih => intro cnts; simp [opDepths, ih, bumpWire_length]

theorem opDepths_snd_sum :
    ∀ (qs : List Nat) (cnts : List Nat), (∀ q ∈ qs, q < cnts.length) →
      (opDepths qs cnts).2.sum = cnts.sum + qs.length := by
  intro qs
  induction qs with
  | nil => intro cnts _; simp [opDepths]
  | cons q rest ih =>
    intro cnts h
    have hq : q < cnts.length := h q (List.mem_cons_self q rest)
    have hrest : ∀ x ∈ rest, x < (bumpWire cnts q).length := by
      intro x hx
      rw [bumpWire_length]
      exact h x (List.mem_cons_of_mem q hx)
    simp only [opDepths, ih (bumpWire cnts q) hrest, bumpWire_sum hq, List.length_cons]
    omega

theorem wireCountsAux_length :
    ∀ (ops : Circuit) (cnts : List Nat), (wireCountsAux ops cnts).length = cnts.length := by
  intro ops
  induction ops with
  | nil => intro cnts; rfl
  | cons op rest ih =>
    intro cnts
    by_cases hnc : op.gate ∈ nonCliffordNames
    · simp [wireCountsAux, hnc, ih, opDepths_snd_length]
    · simp [wireCountsAux, hnc, ih]

theorem wireCountsAux_sum :
    ∀ (ops : Circuit) (cnts : List Nat),
      (∀ op ∈ ops, ∀ q ∈ op.qubits, q < cnts.length) →
      (wireCountsAux ops cnts).sum = cnts.sum + nonCliffordAllocCount ops := by
  intro ops
  induction ops with
  | nil => intro cnts _; simp [wireCountsAux, nonCliffordAllocCount]
  | cons op rest ih =>
    intro cnts h
    rw [nonCliffordAllocCount_cons]
    have hop : ∀ q ∈ op.qubits, q < cnts.length :=
      h op (List.mem_cons_self op rest)
    by_cases hnc : op.gate ∈ nonCliffordNames
    · have hrest : ∀ op' ∈ rest, ∀ q ∈ op'.qubits, q < (opDepths op.qubits cnts).2.length := by
        intro op' hop' q hq
        rw [opDepths_snd_length]
        exact h op' (List.mem_cons_of_mem op hop') q hq
      simp only [wireCountsAux, hnc, ite_true, ih _ hrest,
        opDepths_snd_sum op.qubits cnts hop, opAllocCount, hnc]
      omega
    · have hrest : ∀ op' ∈ rest, ∀ q ∈ op'.qubits, q < cnts.length := by
        intro op' hop' q hq
        exact h op' (List.mem_cons_of_mem op hop') q hq
      simp only [wireCountsAux, hnc, ite_false, ih _ hrest, opAllocCount]
      simp [hnc]

theorem wireCounts_sum (ops : Circuit) :
    (wireCounts ops).sum = nonCliffordAllocCount ops := by
  unfold wireCounts
  rw [wireCountsAux_sum]
  · simp
  · intro op hop q hq
    rw [List.length_replicate]
    exact qubit_lt_circuitNQubits hop hq

theorem wireCounts_entries_le {ops : Circuit} {b : Nat}
    (h : (wireCounts ops).foldl max 0 ≤ b) :
    ∀ x ∈ wireCounts ops, x ≤ b :=
  fun _ hx => le_trans (foldl_max_mem hx 0) h

theorem tOccDepthsAux_length :
    ∀ (ops : Circuit) (cnts : List Nat),
      (tOccDepthsAux ops cnts).length
        = (ops.map (fun op => if op.gate ∈ tGateNames then op.qubits.length else 0)).sum := by
  intro ops
  induction ops with
  | nil => intro cnts; simp [tOccDepthsAux]
  | cons op rest ih =>
    intro cnts
    by_cases hnc : op.gate ∈ nonCliffordNames
    · by_cases ht : op.gate ∈ tGateNames
      · simp [tOccDepthsAux, hnc, ht, ih, opDepths_fst_length]
      · simp [tOccDepthsAux, hnc, ht, ih]
    · have ht : ¬ op.gate ∈ tGateNames := fun h => hnc (tGate_mem_nonClifford h)
      simp [tOccDepthsAux, hnc, ht, ih]

/-- Every T-state measurement's assigned layer lies below `numTLayers`. -/
theorem tOccDepths_lt_numTLayers {ops : Circuit} {d : Nat} (h : d ∈ tOccDepths ops) :
    d < numTLayers ops :=
  foldl_maxsucc_mem h 0

theorem tStatesPerLayer_sum (arch : String) (ops : Circuit) :
    (tStatesPerLayer arch ops).sum
      = (ops.map (fun op => if op.gate ∈ tGateNames then op.qubits.length else 0)).sum := by
  unfold tStatesPerLayer
  rw [bucket_sum (tOccDepths ops) (fun d hd => tOccDepths_lt_numTLayers hd)]
  exact tOccDepthsAux_length ops _

theorem weight_eq_countP_of_single (p : Operation → Bool) :
    ∀ (ops : Circuit), (∀ op ∈ ops, p op = true → op.qubits.length = 1) →
      (ops.map (fun op => if p op then op.qubits.length else 0)).sum = ops.countP p := by
  intro ops
  induction ops with
  | nil => intro _; rfl
  | cons op rest ih =>
    intro h
    have hrest := ih (fun o ho => h o (List.mem_cons_of_mem op ho))
    by_cases hp : p op = true
    · have h1 : op.qubits.length = 1 := h op (List.mem_cons_self op rest) hp
      simp [List.countP_cons, hp, h1, hrest]
      omega
    · simp only [List.map_cons, List.sum_cons, hp, ite_false, List.countP_cons]
      simp at hp
      simp [hp, hrest]

/-! ## Concrete circuits and hyperparameters from the specification and the
test suite -/

/-- Hyperparameters with `teleportation_threshold = 4` and
`teleportation_distance = 4` (the spec's worked example). -/
def exampleHyperparams44 : RbSHyperparams := ⟨4, 4, 6, 100000, 0⟩

/-- Hyperparameters with `teleportation_threshold = 999` (the value used by
most tests, effectively disabling teleportation). -/
def exampleHyperparams999 : RbSHyperparams := ⟨999, 4, 6, 100000, 0⟩

/-- The circuit of the spec's teleportation example:
H(0), CNOT(0,1), CNOT(0,2), CNOT(0,3), CNOT(0,4). -/
def ghzFourCircuit : Circuit :=
  [⟨"H", [0]⟩, ⟨"CNOT", [0, 1]⟩, ⟨"CNOT", [0, 2]⟩, ⟨"CNOT", [0, 3]⟩, ⟨"CNOT", [0, 4]⟩]

/-- The same star circuit with one more coupling: H(0), CNOT(0,1..5). -/
def ghzFiveCircuit : Circuit :=
  ghzFourCircuit ++ [⟨"CNOT", [0, 5]⟩]

/-- A star circuit `H(0)` followed by `k` couplings `CNOT(0, i+1)`. -/
def starCircuit (k : Nat) : Circuit :=
  Operation.mk "H" [0] :: (List.range k).map (fun i => Operation.mk "CNOT" [0, i + 1])

/-- The circuit `Circuit([H(0), T(0)] * 3)` from the layering tests. -/
def htRepeatedCircuit : Circuit :=
  [⟨"H", [0]⟩, ⟨"T", [0]⟩, ⟨"H", [0]⟩, ⟨"T", [0]⟩, ⟨"H", [0]⟩, ⟨"T", [0]⟩]

/-- The Toffoli decomposition circuit used by the T-measurement tests (7 T or
T-adjoint gates). -/
def toffoliExampleCircuit : Circuit :=
  [⟨"T", [0]⟩, ⟨"T", [1]⟩, ⟨"H", [2]⟩, ⟨"CNOT", [0, 1]⟩, ⟨"T", [2]⟩,
   ⟨"CNOT", [1, 2]⟩, ⟨"T_Dagger", [1]⟩, ⟨"T", [2]⟩, ⟨"CNOT", [0, 1]⟩,
   ⟨"CNOT", [1, 2]⟩, ⟨"CNOT", [0, 1]⟩, ⟨"T_Dagger", [2]⟩, ⟨"CNOT", [1, 2]⟩,
   ⟨"CNOT", [0, 1]⟩, ⟨"T_Dagger", [2]⟩, ⟨"CNOT", [1, 2]⟩, ⟨"H", [2]⟩]

/-- The two-qubit Bell-pair circuit `Circuit([H(0), CNOT(0, 1)])`. -/
def bellCircuit : Circuit := [⟨"H", [0]⟩, ⟨"CNOT", [0, 1]⟩]

set_option maxRecDepth 80000 in
/-- The graph-builder model reproduces the teleportation counts pinned by the
test table of `test_ruby_slippers.py` for star circuits at
`teleportation_threshold = 4` (and the threshold-3 and distance-6 rows). -/
theorem model_matches_teleportation_test_table :
    countTeleportations (starCircuit 4) exampleHyperparams44 = 0
    ∧ countTeleportations (starCircuit 4) ⟨3, 4, 6, 100000, 0⟩ = 1
    ∧ countTeleportations (starCircuit 5) ⟨4, 6, 6, 100000, 0⟩ = 1
    ∧ countTeleportations (starCircuit 5) exampleHyperparams44 = 1
    ∧ countTeleportations (starCircuit 7) exampleHyperparams44 = 1
    ∧ countTeleportations (starCircuit 8) exampleHyperparams44 = 2
    ∧ countTeleportations (starCircuit 10) exampleHyperparams44 = 2
    ∧ countTeleportations (starCircuit 11) exampleHyperparams44 = 3
    ∧ countTeleportations (starCircuit 13) exampleHyperparams44 = 3
    ∧ countTeleportations (starCircuit 14) exampleHyperparams44 = 4 := by
  decide

set_option maxRecDepth 80000 in
/-- The model reproduces the layering and logical-qubit expectations of the
`Time`-optimization test rows and the T-chain row of the teleportation
table. -/
theorem model_matches_layering_test_rows :
    layeringLength htRepeatedCircuit exampleHyperparams999 = 3
    ∧ numLogicalQubitsTime htRepeatedCircuit exampleHyperparams999 = 3
    ∧ layeringLength bellCircuit exampleHyperparams999 = 1
    ∧ numLogicalQubitsTime bellCircuit exampleHyperparams999 = 2
    ∧ countTeleportations
        [⟨"H", [0]⟩, ⟨"T", [0]⟩, ⟨"T", [0]⟩, ⟨"T", [0]⟩, ⟨"T", [0]⟩]
        exampleHyperparams44 = 0 := by
  decide

/-! ## Claim theorems -/

/-- C1: the claim states that `assert_tableaus_correspond_to_the_same_stabilizer_state`
together with `check_tableau_entries_commute` establishes that the two
stabilizer generator sets commute pairwise (and full rank).  In the source the
statement `assert check_tableau_entries_commute` tests the truthiness of the
function object without calling it, so the commutation check is vacuous: the
single-qubit tableaus `[[X]]` and `[[Z]]` pass the full assertion although
their generators anticommute (`commutes` returns `false` on them); moreover,
even called directly, `check_tableau_entries_commute` loops only up to
`len(tableau) // 2` — half the generator rows — and also accepts them. -/
theorem c1_stabilizer_check_accepts_anticommuting_tableaus :
    assert_tableaus_correspond_to_the_same_stabilizer_state
        [[true, false]] [[false, true]] = true
    ∧ commutes [true, false] [false, true] = false
    ∧ check_tableau_entries_commute [[true, false]] [[false, true]] = true := by
  decide

theorem nonCliffordAllocCount_eq_countP (ops : Circuit)
    (h : ∀ op ∈ ops, op.gate ∈ nonCliffordNames → op.qubits.length = 1) :
    nonCliffordAllocCount ops
      = ops.countP (fun op => op.gate ∈ nonCliffordNames) := by
  have h' : ∀ op ∈ ops, (decide (op.gate ∈ nonCliffordNames)) = true →
      op.qubits.length = 1 :=
    fun op hop hd => h op hop (of_decide_eq_true hd)
  have key := weight_eq_countP_of_single
    (fun op => decide (op.gate ∈ nonCliffordNames)) ops h'
  unfold nonCliffordAllocCount
  simpa using key

/-- C2: for every circuit whose non-Clifford gates are single-qubit (T,
T-adjoint, rotations), the vertex count of the compiled graph state equals
`n_qubits + n_non_clifford_gates + teleportation_distance × n_teleportations`,
where the teleportation count is produced by the same deterministic run of
the builder over the coupling sequence. -/
theorem c2_vertex_count_equation (ops : Circuit) (hp : RbSHyperparams)
    (h : ∀ op ∈ ops, op.gate ∈ nonCliffordNames → op.qubits.length = 1) :
    numVertices ops hp
      = circuitNQubits ops + ops.countP (fun op => op.gate ∈ nonCliffordNames)
        + hp.teleportation_distance * countTeleportations ops hp := by
  rw [numVertices_eq, nonCliffordAllocCount_eq_countP ops h]

/-- Witness for C2 at the circuit `Circuit([H(0), T(0)] * 3)` with the test
hyperparameters. -/
theorem c2_vertex_count_equation_witness :
    numVertices htRepeatedCircuit exampleHyperparams999
      = circuitNQubits htRepeatedCircuit
        + htRepeatedCircuit.countP (fun op => op.gate ∈ nonCliffordNames)
        + exampleHyperparams999.teleportation_distance
          * countTeleportations htRepeatedCircuit exampleHyperparams999 :=
  c2_vertex_count_equation htRepeatedCircuit exampleHyperparams999 (by decide)

set_option maxRecDepth 80000 in
/-- C3 counterexample: on the claim's own circuit H(0), CNOT(0,1..4) with
teleportation_threshold = 4 and teleportation_distance = 4 the compilation
performs 0 teleportations, not 1 — vertex 0 only reaches degree 4, which does
not exceed the threshold (this is exactly the first row of the repository's
teleportation test table). -/
theorem c3_spec_example_counterexample :
    countTeleportations ghzFourCircuit exampleHyperparams44 = 0
    ∧ countTeleportations ghzFourCircuit exampleHyperparams44 ≠ 1 := by
  decide

set_option maxRecDepth 80000 in
/-- C3 amended: the claim's circuit performs exactly 0 teleportations at
threshold 4 (degree 4 does not exceed the threshold); one further coupling
CNOT(0,5) makes vertex 0 reach degree 5 and triggers exactly 1 teleportation;
and at threshold 999 the original circuit performs 0 teleportations. -/
theorem c3_teleportation_example_amended :
    countTeleportations ghzFourCircuit exampleHyperparams44 = 0
    ∧ countTeleportations ghzFiveCircuit exampleHyperparams44 = 1
    ∧ countTeleportations ghzFourCircuit exampleHyperparams999 = 0 := by
  decide

/-- C4 counterexample: `get_icm` does not fail on a gate that is neither
Clifford nor in the decomposition set — the unsupported operation is emitted
unchanged, so an output circuit is produced, contradicting the claimed
`UnsupportedGateKind` failure. -/
theorem c4_unsupported_gate_counterexample :
    ("FOO" ∉ cliffordGateNames ∧ "FOO" ∉ defaultGatesToDecompose)
    ∧ get_icm [⟨"FOO", [0]⟩] defaultGatesToDecompose = [⟨"FOO", [0]⟩] := by
  decide

/-- C4 amended: `get_icm` is total and never raises; each operation of the
input contributes output operations by gate kind alone — a decomposed gate
yields one CNOT per target qubit, RESET yields nothing, and every other gate
(Clifford or not) is passed through unchanged up to qubit remapping. -/
theorem c4_icm_never_fails (ops : Circuit) (s : List String) :
    (get_icm ops s).map (fun op => op.gate)
      = ops.flatMap (fun op =>
          if op.gate ∈ s then List.replicate op.qubits.length "CNOT"
          else if op.gate = "RESET" then [] else [op.gate]) :=
  icmRun_names s ops id (circuitNQubits ops - 1)

/-- C5 counterexample: with a two-qubit gate in the decomposition set, a
single decomposed occurrence contributes two ancillas and two CNOTs, not
exactly one of each. -/
theorem c5_multiqubit_occurrence_counterexample :
    get_icm [⟨"CZ", [0, 1]⟩] ["CZ"] = [⟨"CNOT", [0, 2]⟩, ⟨"CNOT", [1, 3]⟩]
    ∧ icmAllocatedAncillas [⟨"CZ", [0, 1]⟩] ["CZ"] = [2, 3]
    ∧ (icmAllocatedAncillas [⟨"CZ", [0, 1]⟩] ["CZ"]).length ≠ 1 := by
  decide

/-- C5 amended: `get_icm` allocates one fresh ancilla and emits one CNOT per
target qubit of each decomposed occurrence (exactly one for the single-qubit
gates of the default decomposition set), the allocated ancilla indices are
the consecutive integers following the input's qubit indices — hence pairwise
distinct (the occurrence-to-ancilla map is injective) — and a RESET operation
performs the same fresh allocations while emitting no operation at all. -/
theorem c5_icm_allocation_characterization (ops : Circuit) (s : List String) :
    (icmAllocatedAncillas ops s
        = List.range' (circuitNQubits ops - 1 + 1) (icmAllocCount s ops)
      ∧ (icmAllocatedAncillas ops s).Nodup)
    ∧ (∀ (op : Operation) (m : Nat → Nat) (n : Nat), op.gate ∈ s →
        (icmStepOp s op m n).2
          = List.zipWith (fun comp fresh => Operation.mk "CNOT" [comp, fresh])
              (op.qubits.map m) (List.range' (n + 1) op.qubits.length))
    ∧ (∀ (op : Operation) (m : Nat → Nat) (n : Nat), op.gate ∉ s → op.gate = "RESET" →
        (icmStepOp s op m n).2 = []
          ∧ (icmStepOp s op m n).1.2 = n + op.qubits.length) := by
  refine ⟨⟨icmAllocatedAncillas_spec ops s, ?_⟩, ?_, ?_⟩
  · rw [icmAllocatedAncillas_spec]
    exact List.nodup_range' _ _
  · intro op m n hs
    simp only [icmStepOp, hs, ite_true, icmInner_out]
    rw [List.map_snd_zip _ _ (by simp), List.length_zip, List.length_map, min_self]
  · intro op m n hs hr
    have hs' : ¬ ("RESET" ∈ s) := hr ▸ hs
    refine ⟨by simp [icmStepOp, hs, hr, hs'], ?_⟩
    simp only [icmStepOp, hs, hr, hs', ite_true, ite_false, icmInner_counter]
    simp

/-- Witness for C5: a decomposed T gate emits exactly one CNOT to the fresh
ancilla, and a RESET emits nothing while advancing the allocation counter. -/
theorem c5_icm_allocation_witness :
    (icmStepOp defaultGatesToDecompose ⟨"T", [0]⟩ id 0).2 = [⟨"CNOT", [0, 1]⟩]
    ∧ (icmStepOp defaultGatesToDecompose ⟨"RESET", [0]⟩ id 5).2 = [] := by
  constructor
  · have h := (c5_icm_allocation_characterization [] defaultGatesToDecompose).2.1
      ⟨"T", [0]⟩ id 0 (by decide)
    rw [h]
    decide
  · exact ((c5_icm_allocation_characterization [] defaultGatesToDecompose).2.2
      ⟨"RESET", [0]⟩ id 5 (by decide) rfl).1

/-- C6: for every circuit whose T and T-adjoint gates are single-qubit, the
total number of T-state measurements summed across all layers equals the
number of T / T-adjoint gates of the original circuit, and the total is the
same for any two architectures. -/
theorem c6_t_state_total (ops : Circuit) (arch1 arch2 : String)
    (h : ∀ op ∈ ops, op.gate ∈ tGateNames → op.qubits.length = 1) :
    (tStatesPerLayer arch1 ops).sum = ops.countP (fun op => op.gate ∈ tGateNames)
    ∧ (tStatesPerLayer arch1 ops).sum = (tStatesPerLayer arch2 ops).sum := by
  have h' : ∀ op ∈ ops, (decide (op.gate ∈ tGateNames)) = true →
      op.qubits.length = 1 :=
    fun op hop hd => h op hop (of_decide_eq_true hd)
  have key := weight_eq_countP_of_single (fun op => decide (op.gate ∈ tGateNames)) ops h'
  constructor
  · rw [tStatesPerLayer_sum]
    simpa using key
  · rw [tStatesPerLayer_sum, tStatesPerLayer_sum]

/-- Witness for C6 at the Toffoli decomposition circuit and the two concrete
architectures of the repository. -/
theorem c6_t_state_total_witness :
    (tStatesPerLayer "two_row_bus" toffoliExampleCircuit).sum
        = toffoliExampleCircuit.countP (fun op => op.gate ∈ tGateNames)
    ∧ (tStatesPerLayer "two_row_bus" toffoliExampleCircuit).sum
        = (tStatesPerLayer "all_to_all" toffoliExampleCircuit).sum :=
  c6_t_state_total toffoliExampleCircuit "two_row_bus" "all_to_all" (by decide)

/-- C7: for a fixed circuit, optimization mode and hyperparameters, the
`all_to_all` architecture never requires strictly more graph-construction
tocks than `two_row_bus`, nor more T-state measurement layers. -/
theorem c7_all_to_all_not_worse (ops : Circuit) (opt : String) (hp : RbSHyperparams) :
    graphCreationTocksSum "all_to_all" opt ops hp
        ≤ graphCreationTocksSum "two_row_bus" opt ops hp
    ∧ numTMeasurementLayers "all_to_all" opt ops hp
        = numTMeasurementLayers "two_row_bus" opt ops hp := by
  constructor
  · unfold graphCreationTocksSum
    rw [if_pos rfl, if_neg (by decide)]
    exact foldl_max_le 0 (Nat.zero_le _)
      (fun x hx => List.single_le_sum (fun _ _ => Nat.zero_le _) x hx)
  · rfl

/-- C8: the completion fraction lies in [0, 1] for every budget, and a
compilation that processes the full coupling frontier (no budget exhaustion)
reports completion fraction exactly 1. -/
theorem c8_completion_fraction_bounds (ops : Circuit) (budget : Option Nat) :
    0 ≤ completionFraction ops budget
    ∧ completionFraction ops budget ≤ 1
    ∧ completionFraction ops none = 1 := by
  by_cases h0 : couplingFrontierSize ops = 0
  · unfold completionFraction
    simp [h0]
  · have hpos : (0 : ℚ) < (couplingFrontierSize ops : ℚ) := by
      have := Nat.pos_of_ne_zero h0
      exact_mod_cast this
    have hle : processedCouplings ops budget ≤ couplingFrontierSize ops := by
      unfold processedCouplings
      cases budget with
      | none => exact le_refl _
      | some b => exact min_le_right _ _
    refine ⟨?_, ?_, ?_⟩
    · unfold completionFraction
      rw [if_neg h0]
      apply div_nonneg _ (le_of_lt hpos)
      exact_mod_cast Nat.zero_le _
    · unfold completionFraction
      rw [if_neg h0, div_le_one hpos]
      exact_mod_cast hle
    · unfold completionFraction processedCouplings
      rw [if_neg h0]
      exact div_self (ne_of_gt hpos)

/-- C9: whenever the compiled layering has exactly one layer (in particular
for Clifford-only circuits that trigger no teleportation), the logical-qubit
count reported for the `Time` optimization equals the circuit's declared
qubit count. -/
theorem c9_single_layer_logical_qubits (ops : Circuit) (hp : RbSHyperparams)
    (h : layeringLength ops hp = 1) :
    numLogicalQubitsTime ops hp = circuitNQubits ops := by
  unfold layeringLength at h
  have hmax1 : 1 ≤ max 1 ((wireCounts ops).foldl max 0) := le_max_left _ _
  have htel0 : countTeleportations ops hp = 0 := by
    by_cases ht : countTeleportations ops hp > 0
    · rw [if_pos ht] at h
      omega
    · omega
  rw [if_neg (by omega : ¬ countTeleportations ops hp > 0)] at h
  have hmwc : (wireCounts ops).foldl max 0 ≤ 1 := by
    rcases max_eq_iff.mp h with ⟨_, hle⟩ | ⟨heq, _⟩
    · exact hle
    · exact le_of_eq heq
  have hverts : numVertices ops hp = circuitNQubits ops + nonCliffordAllocCount ops := by
    rw [numVertices_eq, htel0]
    simp
  have hsum : (wireCounts ops).sum = nonCliffordAllocCount ops := wireCounts_sum ops
  have hcp : (wireCounts ops).sum = (wireCounts ops).countP (fun x => 0 < x) :=
    sum_eq_countP_of_le_one _ (wireCounts_entries_le hmwc)
  unfold numLogicalQubitsTime
  rw [hverts, ← hsum, hcp]
  omega

/-- Witness for C9 at the Bell circuit `Circuit([H(0), CNOT(0, 1)])`, whose
compilation has a single layer. -/
theorem c9_single_layer_logical_qubits_witness :
    numLogicalQubitsTime bellCircuit exampleHyperparams999
      = circuitNQubits bellCircuit :=
  c9_single_layer_logical_qubits bellCircuit exampleHyperparams999 (by decide)

theorem lastIdxOf_eq_none {q : Nat} :
    ∀ {qs : List Nat}, q ∉ qs → lastIdxOf q qs = none := by
  intro qs
  induction qs with
  | nil => intro _; rfl
  | cons x rest ih =>
    intro h
    have hx : x ≠ q := fun e => h (e ▸ List.mem_cons_self x rest)
    have hrest : q ∉ rest := fun hr => h (List.mem_cons_of_mem x hr)
    simp [lastIdxOf, ih hrest, hx]

theorem lastAncillaFor_untouched (s : List String) (q : Nat) :
    ∀ (pre : Circuit) (n cur : Nat),
      (∀ op' ∈ pre, (op'.gate ∈ s ∨ op'.gate = "RESET") → q ∉ op'.qubits) →
      lastAncillaFor s q pre n cur = cur := by
  intro pre
  induction pre with
  | nil => intro n cur _; rfl
  | cons op rest ih =>
    intro n cur h
    by_cases ht : op.gate ∈ s ∨ op.gate = "RESET"
    · have hq : q ∉ op.qubits := h op (List.mem_cons_self op rest) ht
      simp only [lastAncillaFor, ht, if_pos, lastIdxOf_eq_none hq]
      exact ih _ _ (fun op' h' hg => h op' (List.mem_cons_of_mem op h') hg)
    · simp only [lastAncillaFor, ht, ite_false]
      exact ih _ _ (fun op' h' hg => h op' (List.mem_cons_of_mem op h') hg)

/-- C10: splitting a circuit around a pass-through operation (gate neither
decomposed nor RESET), `get_icm` emits that operation acting on, for each of
its qubits, the ancilla most recently allocated for that qubit by the
decompose/RESET operations of the prefix (`lastAncillaFor`), and a qubit
never touched by decomposition or RESET keeps its original index. -/
theorem c10_subsequent_ops_use_latest_ancilla (s : List String) (pre post : Circuit)
    (op : Operation) (hs : op.gate ∉ s) (hr : op.gate ≠ "RESET") :
    get_icm (pre ++ op :: post) s
      = (icmRun s pre (id, circuitNQubits (pre ++ op :: post) - 1)).2
        ++ Operation.mk op.gate (op.qubits.map (fun q =>
             lastAncillaFor s q pre (circuitNQubits (pre ++ op :: post) - 1) q))
        :: (icmRun s post
             (icmStepOp s op
               (icmRun s pre (id, circuitNQubits (pre ++ op :: post) - 1)).1.1
               (icmRun s pre (id, circuitNQubits (pre ++ op :: post) - 1)).1.2).1).2
    ∧ ∀ q, (∀ op' ∈ pre, (op'.gate ∈ s ∨ op'.gate = "RESET") → q ∉ op'.qubits) →
        lastAncillaFor s q pre (circuitNQubits (pre ++ op :: post) - 1) q = q := by
  constructor
  · have hmap : (icmRun s pre (id, circuitNQubits (pre ++ op :: post) - 1)).1.1
        = fun q => lastAncillaFor s q pre (circuitNQubits (pre ++ op :: post) - 1) q :=
      funext (fun q => icmRun_map s pre id (circuitNQubits (pre ++ op :: post) - 1) q)
    unfold get_icm
    rw [icmRun_append_out]
    congr 1
    have hstep : (icmStepOp s op
        (icmRun s pre (id, circuitNQubits (pre ++ op :: post) - 1)).1.1
        (icmRun s pre (id, circuitNQubits (pre ++ op :: post) - 1)).1.2).2
        = [Operation.mk op.gate (op.qubits.map
            (icmRun s pre (id, circuitNQubits (pre ++ op :: post) - 1)).1.1)] := by
      simp [icmStepOp, hs, hr]
    conv_lhs => rw [show (op :: post : Circuit) = op :: post from rfl]
    simp only [icmRun]
    rw [hstep, hmap]
    rfl
  · exact fun q hq => lastAncillaFor_untouched s q pre _ _ hq

/-- Witness for C10: in the circuit `[T(0), CNOT(0, 1)]` with the default
decomposition set, the CNOT is emitted on the ancilla freshly allocated for
qubit 0 by the decomposed T. -/
theorem c10_subsequent_ops_use_latest_ancilla_witness :
    get_icm [⟨"T", [0]⟩, ⟨"CNOT", [0, 1]⟩] defaultGatesToDecompose
      = [⟨"CNOT", [0, 2]⟩, ⟨"CNOT", [2, 1]⟩] := by
  have h := (c10_subsequent_ops_use_latest_ancilla defaultGatesToDecompose
    [⟨"T", [0]⟩] [] ⟨"CNOT", [0, 1]⟩ (by decide) (by decide)).1
  rw [show ([⟨"T", [0]⟩] ++ (⟨"CNOT", [0, 1]⟩ : Operation) :: [] : Circuit)
      = [⟨"T", [0]⟩, ⟨"CNOT", [0, 1]⟩] from rfl] at h
  rw [h]
  decide

end Benchq
